import Mathlib

/-!
Shallow embedding of `py_meta_utils.py` (briancappello/py-meta-utils).

Python runtime values are modelled by the inductive `Val`.  Python dicts and
object attribute namespaces are modelled as association lists with
first-occurrence lookup (`alistGet`), position-preserving update (`alistSet`,
matching dict assignment, which keeps the key at its original position) and
key removal (`alistErase`).  A class object is flattened to the full
attribute mapping that `getattr` can see on it; a populated
`MetaOptionsFactory` instance is likewise flattened to its resolved option
attributes.  Fallible Python code (raised exceptions) is modelled with
`Except`.
-/

namespace PyMetaUtils

/-- Python runtime values, as needed by the embedded functions.  `vCls attrs`
is a class object whose visible attributes are `attrs`; `vFactory attrs` is a
populated meta-options factory instance whose resolved option attributes are
`attrs`. -/
inductive Val where
  | vNone
  | vBool (b : Bool)
  | vInt (n : Int)
  | vStr (s : String)
  | vCls (attrs : List (String × Val))
  | vFactory (attrs : List (String × Val))

/-- Dict lookup: first occurrence of the key wins (Python dicts have unique
keys, so on well-formed dicts this is exact). -/
def alistGet {κ α : Type} [DecidableEq κ] : List (κ × α) → κ → Option α
  | [], _ => none
  | (k, v) :: rest, k1 => if k = k1 then some v else alistGet rest k1

/-- Dict assignment `d[k] = v`: replaces the value at an existing key in
place, otherwise appends the new pair (insertion order semantics). -/
def alistSet {κ α : Type} [DecidableEq κ] : List (κ × α) → κ → α → List (κ × α)
  | [], k, v => [(k, v)]
  | (k1, v1) :: rest, k, v =>
    if k1 = k then (k, v) :: rest else (k1, v1) :: alistSet rest k v

/-- Dict key removal `d.pop(k, None)` (the mapping afterwards). -/
def alistErase {κ α : Type} [DecidableEq κ] (l : List (κ × α)) (k : κ) :
    List (κ × α) :=
  l.filter (fun kv => kv.1 ≠ k)

/-- Python `x is True`: holds exactly for the boolean object `True`
(in particular `1 is True` and `"x" is True` are false). -/
def Val.is_True : Val → Bool
  | .vBool true => true
  | _ => false

/-- Python `isinstance(x, bool)`. -/
def Val.isBool : Val → Bool
  | .vBool _ => true
  | _ => false

/-- Python `getattr(obj, name)` restricted to the object kinds the embedded code
reads attributes from: class objects and factory instances.  The primitive
values carry no attributes the code ever reads. -/
def Val.getattr : Val → String → Option Val
  | .vCls attrs, n => alistGet attrs n
  | .vFactory attrs, n => alistGet attrs n
  | _, _ => none

/-- The attribute mapping of a value, when it is a class object or a factory
instance; `none` for everything else (in particular for Python `None`). -/
def Val.asAttrs : Val → Option (List (String × Val))
  | .vCls attrs => some attrs
  | .vFactory attrs => some attrs
  | _ => none

/-- Lookup of `name` through the base classes in resolution order:
`getattr(base, name, _missing)` for each base in turn, first hit wins.
Each base is flattened to the attribute mapping its own MRO exposes. -/
def basesGet : List (List (String × Val)) → String → Option Val
  | [], _ => none
  | b :: rest, n =>
    match alistGet b n with
    | some v => some v
    | none => basesGet rest n

/-- The function `deep_getattr(clsdict, bases, name, default)`.  The module-private
`_missing` sentinel (plain identity equality) is modelled by `Option`; the
absent-default case is `default = none`; `raise AttributeError(name)` is
modelled by `.error name`. -/
def deep_getattr (clsdict : List (String × Val))
    (bases : List (List (String × Val))) (name : String)
    (default : Option Val) : Except String Val :=
  match alistGet clsdict name with
  | some v => .ok v
  | none =>
    match basesGet bases name with
    | some v => .ok v
    | none =>
      match default with
      | some d => .ok d
      | none => .error name

/-- The `McsArgs` data holder for the parameters of `type.__new__`.
The `mcs` field is omitted: none of the embedded operations read it.
Each entry of `bases` is an already-constructed base class, flattened to the
full attribute mapping `getattr` sees on it, listed in resolution order. -/
structure McsArgs where
  name : String
  bases : List (List (String × Val))
  clsdict : List (String × Val)

/-- Convenience wrapper `McsArgs.getattr` around around `deep_getattr`. -/
def McsArgs.getattr (a : McsArgs) (n : String) (default : Option Val) :
    Except String Val :=
  deep_getattr a.clsdict a.bases n default

/-- The `ABSTRACT_ATTR` module constant. -/
def ABSTRACT_ATTR : String := "__abstract__"

/-- The property `McsArgs.is_abstract`:
`meta_value = getattr(self.clsdict.get("Meta"), "abstract", False)` followed
by `self.clsdict.get(ABSTRACT_ATTR, meta_value) is True`. -/
def McsArgs.is_abstract (a : McsArgs) : Bool :=
  let meta_value :=
    (((alistGet a.clsdict "Meta").getD .vNone).getattr "abstract").getD
      (.vBool false)
  ((alistGet a.clsdict ABSTRACT_ATTR).getD meta_value).is_True

/-- Python exceptions raised by the embedded factory code. -/
inductive PyError where
  | assertionError (msg : String)
  | typeError (msg : String)
deriving DecidableEq

/-- Which `get_value` / `check_value` / `contribute_to_class` overrides an
option uses: the plain `MetaOption` base class, or `AbstractMetaOption`. -/
inductive OptionKind where
  | plain
  | abstract
deriving DecidableEq

/-- A meta option: `MetaOption(name, default, inherit)`.  `kind` selects
between the base-class behaviour and the `AbstractMetaOption` overrides. -/
structure MetaOption where
  kind : OptionKind
  name : String
  default : Val
  inherit : Bool

/-- The option `AbstractMetaOption()`: name `abstract`, default `False`, no inherit. -/
def abstractMetaOption : MetaOption :=
  ⟨.abstract, "abstract", .vBool false, false⟩

/-- The base-class `MetaOption.get_value(Meta, base_classes_meta, mcs_args)`:
start from the default; if `inherit` and a base factory exists, take its
attribute when present; if a `Meta` class was declared, its attribute wins
when present.  (`mcs_args` is unused by the base implementation.) -/
def MetaOption.base_get_value (o : MetaOption)
    (Meta : Option (List (String × Val)))
    (base_classes_meta : Option (List (String × Val))) : Val :=
  let value := o.default
  let value :=
    if o.inherit then
      match base_classes_meta with
      | some b => (alistGet b o.name).getD value
      | none => value
    else value
  match Meta with
  | some m => (alistGet m o.name).getD value
  | none => value

/-- Dynamic dispatch of `get_value`: the base implementation for plain
options; for `AbstractMetaOption`, first the `__abstract__` class attribute
(`is True` wins), else the base value coerced with `is True`. -/
def MetaOption.get_value (o : MetaOption) (Meta : Option (List (String × Val)))
    (base_classes_meta : Option (List (String × Val))) (a : McsArgs) : Val :=
  match o.kind with
  | .plain => o.base_get_value Meta base_classes_meta
  | .abstract =>
    if ((alistGet a.clsdict ABSTRACT_ATTR).getD (.vBool false)).is_True then
      .vBool true
    else
      .vBool (o.base_get_value Meta base_classes_meta).is_True

/-- Dynamic dispatch of `check_value`: the base implementation accepts
everything; `AbstractMetaOption.check_value` raises `TypeError` on any
non-boolean value. -/
def MetaOption.check_value (o : MetaOption) (v : Val) : Except PyError Unit :=
  match o.kind with
  | .plain => .ok ()
  | .abstract =>
    if v.isBool then .ok ()
    else .error (.typeError "The abstract Meta option must be either True or False")

/-- Dynamic dispatch of `contribute_to_class`, acting on the clsdict: the
base implementation does nothing; `AbstractMetaOption` writes
`clsdict[ABSTRACT_ATTR] = True if value is True else False`. -/
def MetaOption.contribute_to_class (o : MetaOption)
    (clsdict : List (String × Val)) (value : Val) : List (String × Val) :=
  match o.kind with
  | .plain => clsdict
  | .abstract => alistSet clsdict ABSTRACT_ATTR (.vBool value.is_True)

/-- Python `k.startswith("_")` for the fixed one-character prefix used by
the source: true exactly when the first character of `k` is an underscore.
(The library function `String.startsWith` is extensionally the same here but
is defined by well-founded recursion, which blocks evaluation inside
proofs.) -/
def startsWithUnderscore (s : String) : Bool :=
  match s.data with
  | [] => false
  | c :: _ => c = '_'

/-- Sorting of string keys: Python `sorted`, lexicographic and stable. -/
def sortStrings (l : List String) : List String :=
  List.insertionSort (· ≤ ·) l

/-- The loop body of `MetaOptionsFactory._fill_from_meta`: walk the specs in
declared order, asserting the factory does not already carry the attribute
(`hasattr(self, option.name)`), computing and checking the value, removing
the name from the working set of declared `Meta` attributes, and storing the
value on the factory unless the name is the placeholder `_`.

`selfAttrs` are the attributes dynamically set on the factory instance so
far; a fresh factory carries none of the option names (its class members are
all underscore-protected and `__init__` only sets `_mcs_args`), so the
pipeline below starts it at `[]`. -/
def fillLoop (opts : List MetaOption) (Meta : Option (List (String × Val)))
    (base_classes_meta : Option (List (String × Val))) (a : McsArgs)
    (selfAttrs meta_attrs : List (String × Val)) :
    Except PyError (List (String × Val) × List (String × Val)) :=
  match opts with
  | [] => .ok (selfAttrs, meta_attrs)
  | o :: rest =>
    if (alistGet selfAttrs o.name).isSome then
      .error (.assertionError ("Can\x27t override field " ++ o.name ++ "."))
    else
      let value := o.get_value Meta base_classes_meta a
      match o.check_value value with
      | .error e => .error e
      | .ok _ =>
        let meta_attrs1 := alistErase meta_attrs o.name
        let selfAttrs1 :=
          if o.name ≠ "_" then alistSet selfAttrs o.name value else selfAttrs
        fillLoop rest Meta base_classes_meta a selfAttrs1 meta_attrs1

/-- The method `MetaOptionsFactory._fill_from_meta(Meta, base_classes_meta, mcs_args)`
for a factory whose `_get_meta_options()` returns `opts`.  Returns the
attributes set on the factory, or the raised exception.  The initial working
set excludes the underscore-prefixed attributes of the declared `Meta`
(`vars(Meta)` filtered); after the loop, a non-empty working set raises the
unknown-attributes `TypeError` with the remaining keys sorted. -/
def MetaOptionsFactory.fill_from_meta (opts : List MetaOption)
    (Meta : Option (List (String × Val)))
    (base_classes_meta : Option (List (String × Val))) (a : McsArgs) :
    Except PyError (List (String × Val)) :=
  let meta_attrs :=
    match Meta with
    | none => []
    | some m => m.filter (fun kv => ¬ startsWithUnderscore kv.1)
  match fillLoop opts Meta base_classes_meta a [] meta_attrs with
  | .error e => .error e
  | .ok (selfAttrs, remaining) =>
    if remaining.isEmpty then .ok selfAttrs
    else
      .error (.typeError ("`class Meta` for " ++ a.name ++
        " got unknown attribute(s) " ++
        String.intercalate ", " (sortStrings (remaining.map Prod.fst))))

/-- The method `MetaOptionsFactory._contribute_to_class(mcs_args)`: pop the declared
`Meta` from the clsdict, find the nearest resolved base factory with
`mcs_args.getattr("Meta", None)`, fill the factory from the declared options,
write the populated factory back under `Meta`, and run each option
`contribute_to_class` hook with `getattr(self, option.name, None)`.

In the source, `clsdict["Meta"] = self` stores a reference that the fill then
mutates; since no embedded option reads `clsdict["Meta"]` during the fill,
this is modelled by writing the fully resolved factory after the fill.
Returns the final clsdict together with the factory attributes. -/
def MetaOptionsFactory.contribute_to_class (opts : List MetaOption)
    (a : McsArgs) :
    Except PyError (List (String × Val) × List (String × Val)) :=
  let Meta := (alistGet a.clsdict "Meta").bind Val.asAttrs
  let clsdict0 := alistErase a.clsdict "Meta"
  let base_classes_meta :=
    (match deep_getattr clsdict0 a.bases "Meta" (some .vNone) with
     | .ok v => v
     | .error _ => .vNone).asAttrs
  match MetaOptionsFactory.fill_from_meta opts Meta base_classes_meta
      ⟨a.name, a.bases, clsdict0⟩ with
  | .error e => .error e
  | .ok selfAttrs =>
    let clsdict1 := alistSet clsdict0 "Meta" (.vFactory selfAttrs)
    let clsdict2 := opts.foldl
      (fun cd o => o.contribute_to_class cd ((alistGet selfAttrs o.name).getD .vNone))
      clsdict1
    .ok (clsdict2, selfAttrs)

/-- A class participating in the `Singleton` metaclass, identified by a
numeric identity, with its method resolution order (own id first, then the
ancestors) given as identities. -/
structure ClassDesc where
  id : Nat
  mro : List Nat
deriving DecidableEq

/-- The process-wide `Singleton` registry: `_classes` maps a class identity
to the identity of the designated concrete class, `_instances` maps a
concrete class identity to its cached instance.  Instances are modelled by
the value of a fresh counter at creation time, so two instances are the
identical object exactly when the numbers are equal. -/
structure SState where
  classes : List (Nat × Nat)
  instances : List (Nat × Nat)
  nextInst : Nat
deriving DecidableEq

/-- The method `Singleton.set_singleton_class(self, cls)`: if `self` already has an
entry in `_classes`, emit the warning and return with nothing changed
(the returned boolean records whether the warning fired); otherwise map
every class in `self.__mro__` to `cls`, and `cls` to itself. -/
def Singleton.set_singleton_class (self : ClassDesc) (c : Nat) (s : SState) :
    SState × Bool :=
  if (alistGet s.classes self.id).isSome then (s, true)
  else
    (SState.mk
      (alistSet (self.mro.foldl (fun m b => alistSet m b c) s.classes) c c)
      s.instances s.nextInst, false)

/-- The method `Singleton.__call__(cls)`: auto-designate `cls` for itself when it has no
entry in `_classes`; re-target to the designated class; construct and cache a
new instance if the designated class has none, else return the cached one.
The `_classes` lookup after designation always succeeds (designation writes
the key), so the `getD` default is never taken. -/
def Singleton.call (cls : ClassDesc) (s : SState) : SState × Nat :=
  let s1 :=
    if (alistGet s.classes cls.id).isSome then s
    else (Singleton.set_singleton_class cls cls.id s).1
  let d := (alistGet s1.classes cls.id).getD cls.id
  match alistGet s1.instances d with
  | some i => (s1, i)
  | none =>
    (SState.mk s1.classes (alistSet s1.instances d s1.nextInst)
      (s1.nextInst + 1), s1.nextInst)

/-- The keys of a declared `Meta` attribute mapping that are not
underscore-prefixed and match no option of the schema: exactly the keys the
unknown-attributes error must report. -/
def unknownMetaKeys (m : List (String × Val)) (opts : List MetaOption) :
    List String :=
  ((m.filter (fun kv => ¬ startsWithUnderscore kv.1)).filter
    (fun kv => opts.all (fun o => kv.1 ≠ o.name))).map Prod.fst

theorem alistGet_set {κ α : Type} [DecidableEq κ] (l : List (κ × α)) (k : κ)
    (v : α) (k1 : κ) :
    alistGet (alistSet l k v) k1 = if k = k1 then some v else alistGet l k1 := by
  induction l with
  | nil => simp [alistSet, alistGet]
  | cons kv rest ih =>
    obtain ⟨k0, v0⟩ := kv
    by_cases h : k0 = k
    · subst h
      simp only [alistSet, if_pos rfl, alistGet]
      by_cases h1 : k0 = k1 <;> simp [h1]
    · simp only [alistSet, if_neg h, alistGet]
      by_cases h1 : k0 = k1
      · subst h1
        have hk : ¬ k = k0 := fun hh => h hh.symm
        simp [hk]
      · simp [h1, ih]

theorem alistGet_erase {κ α : Type} [DecidableEq κ] (l : List (κ × α))
    (k k1 : κ) :
    alistGet (alistErase l k) k1 = if k1 = k then none else alistGet l k1 := by
  induction l with
  | nil => by_cases h1 : k1 = k <;> simp [alistErase, alistGet, h1]
  | cons kv rest ih =>
    obtain ⟨k0, v0⟩ := kv
    by_cases h : k0 = k
    · subst h
      have hdrop : alistErase ((k0, v0) :: rest) k0 = alistErase rest k0 := by
        simp [alistErase]
      rw [hdrop, ih]
      by_cases h1 : k1 = k0
      · simp [h1]
      · have h1x : ¬ k0 = k1 := fun hh => h1 hh.symm
        simp [h1, h1x, alistGet]
    · have hkeep : alistErase ((k0, v0) :: rest) k =
          (k0, v0) :: alistErase rest k := by
        simp [alistErase, h]
      rw [hkeep]
      simp only [alistGet, ih]
      by_cases h0 : k0 = k1
      · subst h0
        have hx : ¬ k0 = k := h
        simp [hx]
      · by_cases h2 : k1 = k <;> simp [h0, h2, h]

theorem alistGet_eq_none_iff {κ α : Type} [DecidableEq κ]
    (l : List (κ × α)) (k : κ) :
    alistGet l k = none ↔ k ∉ l.map Prod.fst := by
  induction l with
  | nil => simp [alistGet]
  | cons kv rest ih =>
    obtain ⟨k0, v0⟩ := kv
    by_cases h : k0 = k
    · subst h
      simp [alistGet]
    · have hx : ¬ k = k0 := fun hh => h hh.symm
      simp [alistGet, h, hx, ih]

theorem alistSet_map_fst {κ α : Type} [DecidableEq κ] (l : List (κ × α))
    (k : κ) (v : α) :
    (alistSet l k v).map Prod.fst =
      if (alistGet l k).isSome then l.map Prod.fst
      else l.map Prod.fst ++ [k] := by
  induction l with
  | nil => simp [alistSet, alistGet]
  | cons kv rest ih =>
    obtain ⟨k0, v0⟩ := kv
    by_cases h : k0 = k
    · subst h
      simp [alistSet, alistGet]
    · simp only [alistSet, if_neg h, alistGet, List.map_cons, ih]
      by_cases hs : (alistGet rest k).isSome <;> simp [hs, h]

theorem alistSet_keys_nodup {κ α : Type} [DecidableEq κ]
    (l : List (κ × α)) (k : κ) (v : α)
    (h : (l.map Prod.fst).Nodup) : ((alistSet l k v).map Prod.fst).Nodup := by
  rw [alistSet_map_fst]
  by_cases hs : (alistGet l k).isSome
  · simpa [hs]
  · have : alistGet l k = none := by
      cases hg : alistGet l k
      · rfl
      · simp [hg] at hs
    have hk : k ∉ l.map Prod.fst := (alistGet_eq_none_iff l k).mp this
    simp [hs, List.nodup_append, h, hk]

theorem alistGet_foldl_set {κ α : Type} [DecidableEq κ] (xs : List κ)
    (init : List (κ × α)) (c : α) (k : κ) :
    alistGet (xs.foldl (fun m b => alistSet m b c) init) k =
      if k ∈ xs then some c else alistGet init k := by
  induction xs generalizing init with
  | nil => simp
  | cons x xs ih =>
    simp only [List.foldl_cons]
    rw [ih]
    by_cases hk : k ∈ xs
    · simp [hk]
    · rw [if_neg hk, alistGet_set]
      by_cases hx : x = k
      · subst hx
        simp
      · have hx1 : ¬ k = x := fun hh => hx hh.symm
        simp [hk, hx, hx1]

/-- Python `x is True` holds exactly for the boolean object `True`. -/
theorem Val.is_True_iff (v : Val) : v.is_True = true ↔ v = .vBool true := by
  cases v with
  | vBool b => cases b <;> simp [Val.is_True]
  | vNone => simp [Val.is_True]
  | vInt n => simp [Val.is_True]
  | vStr s => simp [Val.is_True]
  | vCls attrs => simp [Val.is_True]
  | vFactory attrs => simp [Val.is_True]

/-- C1: for every meta option spec (name, default, inherit) processed by the
base `MetaOption.get_value` implementation, the resolved value equals the
value the declared `class Meta` defines for the name when it does; otherwise,
when `inherit` is set and a base factory is available and defines the name,
that attribute; otherwise the default.  Moreover with `inherit` unset the
base factory is never consulted, and for a plain option the dispatched
`get_value` is exactly the base implementation. -/
theorem metaOption_get_value_precedence (o : MetaOption)
    (Meta base_classes_meta : Option (List (String × Val))) :
    (o.base_get_value Meta base_classes_meta =
      match Meta.bind (fun m => alistGet m o.name) with
      | some v => v
      | none =>
        if o.inherit then
          (base_classes_meta.bind (fun b => alistGet b o.name)).getD o.default
        else o.default)
    ∧ o.base_get_value Meta base_classes_meta =
        o.base_get_value Meta (if o.inherit then base_classes_meta else none)
    ∧ (∀ (n : String) (d : Val) (i : Bool) (a : McsArgs),
        MetaOption.get_value ⟨.plain, n, d, i⟩ Meta base_classes_meta a =
          MetaOption.base_get_value ⟨.plain, n, d, i⟩ Meta base_classes_meta) := by
  refine ⟨?_, ?_, fun n d i a => rfl⟩
  · unfold MetaOption.base_get_value
    cases Meta with
    | none =>
      simp only [Option.bind]
      cases hi : o.inherit
      · simp
      · cases base_classes_meta with
        | none => simp
        | some b => cases hb : alistGet b o.name <;> simp [hb]
    | some m =>
      cases hm : alistGet m o.name with
      | some v => simp [hm]
      | none =>
        simp only [Option.bind, hm, Option.getD_none]
        cases hi : o.inherit
        · simp
        · cases base_classes_meta with
          | none => simp
          | some b => cases hb : alistGet b o.name <;> simp [hb]
  · unfold MetaOption.base_get_value
    cases hi : o.inherit <;> simp

/-- Helper: `basesGet` returns the attribute of the first base that defines
the name. -/
theorem basesGet_append_first (pre : List (List (String × Val)))
    (b : List (String × Val)) (post : List (List (String × Val)))
    (name : String) (v : Val)
    (hpre : ∀ p ∈ pre, alistGet p name = none)
    (hb : alistGet b name = some v) :
    basesGet (pre ++ b :: post) name = some v := by
  induction pre with
  | nil => simp [basesGet, hb]
  | cons p rest ih =>
    have hp : alistGet p name = none := hpre p (List.mem_cons_self p rest)
    simp only [List.cons_append, basesGet, hp]
    exact ih (fun q hq => hpre q (List.mem_cons_of_mem p hq))

/-- C6: deep lookup precedence: the pending namespace wins whenever it has
the key (whatever the bases define); otherwise the first base in resolution
order defining the attribute wins; with a default supplied the lookup never
raises; with neither namespace, bases, nor default it raises
`AttributeError`, and the default is returned as a last resort. -/
theorem deep_getattr_spec (clsdict : List (String × Val))
    (bases : List (List (String × Val))) (name : String) :
    (∀ v, alistGet clsdict name = some v →
        ∀ default, deep_getattr clsdict bases name default = .ok v)
    ∧ (alistGet clsdict name = none →
        ∀ (pre b post), bases = pre ++ b :: post →
          (∀ p ∈ pre, alistGet p name = none) →
          ∀ v, alistGet b name = some v →
            ∀ default, deep_getattr clsdict bases name default = .ok v)
    ∧ (∀ d, ∃ v, deep_getattr clsdict bases name (some d) = .ok v)
    ∧ (alistGet clsdict name = none → basesGet bases name = none →
        deep_getattr clsdict bases name none = .error name
        ∧ ∀ d, deep_getattr clsdict bases name (some d) = .ok d) := by
  refine ⟨?_, ?_, ?_, ?_⟩
  · intro v hv default
    simp [deep_getattr, hv]
  · intro hc pre b post hbases hpre v hv default
    subst hbases
    simp [deep_getattr, hc, basesGet_append_first pre b post name v hpre hv]
  · intro d
    unfold deep_getattr
    cases hc : alistGet clsdict name
    · cases hb : basesGet bases name
      · exact ⟨d, rfl⟩
      · exact ⟨_, rfl⟩
    · exact ⟨_, rfl⟩
  · intro hc hb
    simp [deep_getattr, hc, hb]

/-- Witness for C6 at concrete inputs: namespace precedence over a
conflicting base, first-base-wins, default fallback, and the raising case. -/
theorem deep_getattr_spec_witness :
    deep_getattr [("hi", Val.vStr "hello")] [[("hi", Val.vStr "base")]]
        "hi" none = .ok (Val.vStr "hello")
    ∧ deep_getattr [] [[("no", Val.vNone)], [("hi", Val.vStr "base")]]
        "hi" none = .ok (Val.vStr "base")
    ∧ deep_getattr [] [] "nope" (some (Val.vStr "d")) = .ok (Val.vStr "d")
    ∧ deep_getattr [] [] "nope" none = .error "nope" := by
  refine ⟨?_, ?_, ?_, ?_⟩
  · exact (deep_getattr_spec [("hi", Val.vStr "hello")]
      [[("hi", Val.vStr "base")]] "hi").1 _ rfl none
  · exact (deep_getattr_spec [] [[("no", Val.vNone)], [("hi", Val.vStr "base")]]
      "hi").2.1 rfl [[("no", Val.vNone)]] [("hi", Val.vStr "base")] [] rfl
      (by intro p hp; simp at hp; subst hp; rfl) _ rfl none
  · exact ((deep_getattr_spec [] [] "nope").2.2.2 rfl rfl).2 _
  · exact ((deep_getattr_spec [] [] "nope").2.2.2 rfl rfl).1

/-- C7: `McsArgs.is_abstract` holds exactly when the namespace stores the
boolean `True` under `__abstract__`, or the namespace has no `__abstract__`
key and the declared `Meta` object carries the boolean `True` under
`abstract`.  In particular any non-boolean value stored under the flag makes
the class non-abstract. -/
theorem mcsArgs_is_abstract_iff (a : McsArgs) :
    a.is_abstract = true ↔
      (alistGet a.clsdict ABSTRACT_ATTR = some (.vBool true)
       ∨ (alistGet a.clsdict ABSTRACT_ATTR = none
          ∧ ((alistGet a.clsdict "Meta").getD .vNone).getattr "abstract"
              = some (.vBool true))) := by
  unfold McsArgs.is_abstract
  cases hf : alistGet a.clsdict ABSTRACT_ATTR with
  | some v =>
    simp only [hf, Option.getD_some, Val.is_True_iff]
    constructor
    · intro hv
      exact Or.inl (by rw [hv])
    · rintro (hv | ⟨hnone, _⟩)
      · exact Option.some.inj hv
      · cases hnone
  | none =>
    simp only [hf, Option.getD_none]
    cases hm : ((alistGet a.clsdict "Meta").getD .vNone).getattr "abstract" with
    | some w =>
      simp only [hm, Option.getD_some, Val.is_True_iff]
      constructor
      · intro hw
        refine Or.inr ⟨by trivial, ?_⟩
        simp [hw]
      · rintro (hv | ⟨-, hw⟩)
        · cases hv
        · exact Option.some.inj hw
    | none =>
      simp only [hm, Option.getD_none]
      constructor
      · intro h
        cases h
      · rintro (hv | ⟨-, hw⟩)
        · cases hv
        · cases hw

/-- Witness for C7 at concrete inputs: an exact `True` flag, a truthy
non-boolean flag, and the fallback to the `Meta` value. -/
theorem mcsArgs_is_abstract_iff_witness :
    McsArgs.is_abstract ⟨"T", [], [(ABSTRACT_ATTR, Val.vBool true)]⟩ = true
    ∧ ¬ McsArgs.is_abstract ⟨"T", [], [(ABSTRACT_ATTR, Val.vStr "garbage")]⟩ = true
    ∧ McsArgs.is_abstract
        ⟨"T", [], [("Meta", Val.vCls [("abstract", Val.vBool true)])]⟩ = true := by
  refine ⟨?_, ?_, ?_⟩
  · exact (mcsArgs_is_abstract_iff
      ⟨"T", [], [(ABSTRACT_ATTR, Val.vBool true)]⟩).mpr (Or.inl rfl)
  · intro h
    rcases (mcsArgs_is_abstract_iff
        ⟨"T", [], [(ABSTRACT_ATTR, Val.vStr "garbage")]⟩).mp h with hv | ⟨hn, -⟩
    · cases hv
    · cases hn
  · exact (mcsArgs_is_abstract_iff
      ⟨"T", [], [("Meta", Val.vCls [("abstract", Val.vBool true)])]⟩).mpr
      (Or.inr ⟨rfl, rfl⟩)

/-- C9: for every input, `AbstractMetaOption.get_value` returns an exact
boolean, so `AbstractMetaOption.check_value` applied to its result never
raises: the non-boolean rejection branch is unreachable in the resolution
flow. -/
theorem abstract_get_value_always_bool
    (Meta base_classes_meta : Option (List (String × Val))) (a : McsArgs) :
    (∃ b : Bool,
        abstractMetaOption.get_value Meta base_classes_meta a = .vBool b)
    ∧ abstractMetaOption.check_value
        (abstractMetaOption.get_value Meta base_classes_meta a) = .ok () := by
  unfold abstractMetaOption MetaOption.get_value MetaOption.check_value
  by_cases h :
      ((alistGet a.clsdict ABSTRACT_ATTR).getD (.vBool false)).is_True = true
  · simp [h, Val.isBool]
  · simp [h, Val.isBool]

/-- Helper: `set_singleton_class` on an already-designated class warns and
changes nothing. -/
theorem set_singleton_class_designated (self : ClassDesc) (c : Nat)
    (s : SState) (h : (alistGet s.classes self.id).isSome = true) :
    Singleton.set_singleton_class self c s = (s, true) := by
  unfold Singleton.set_singleton_class
  simp [h]

/-- Helper: `set_singleton_class` on an undesignated class records the
designation for the whole MRO and the concrete class, without warning. -/
theorem set_singleton_class_undesignated (self : ClassDesc) (c : Nat)
    (s : SState) (h : alistGet s.classes self.id = none) :
    Singleton.set_singleton_class self c s =
      (SState.mk
        (alistSet (self.mro.foldl (fun m b => alistSet m b c) s.classes) c c)
        s.instances s.nextInst, false) := by
  unfold Singleton.set_singleton_class
  simp [h]

/-- Helper: a `Singleton.__call__` on a class that is designated to `d` and
whose designated class has a cached instance returns that instance and
leaves the registry untouched. -/
theorem singleton_call_hit (x : ClassDesc) (s : SState) (d i : Nat)
    (h1 : alistGet s.classes x.id = some d)
    (h2 : alistGet s.instances d = some i) :
    Singleton.call x s = (s, i) := by
  unfold Singleton.call
  simp [h1, h2]

/-- Helper: `Singleton.__call__` on a designated class with no cached
instance for the designated class constructs and caches a fresh one. -/
theorem singleton_call_designated_miss (x : ClassDesc) (s : SState) (d : Nat)
    (h1 : alistGet s.classes x.id = some d)
    (h2 : alistGet s.instances d = none) :
    Singleton.call x s =
      (SState.mk s.classes (alistSet s.instances d s.nextInst)
        (s.nextInst + 1), s.nextInst) := by
  unfold Singleton.call
  simp [h1, h2]

/-- Helper: `Singleton.__call__` on an undesignated class first designates
it for itself; with an instance already cached under its own identity it
returns that instance. -/
theorem singleton_call_undesignated_hit (x : ClassDesc) (s : SState) (i : Nat)
    (h1 : alistGet s.classes x.id = none)
    (h2 : alistGet s.instances x.id = some i) :
    Singleton.call x s = ((Singleton.set_singleton_class x x.id s).1, i) := by
  unfold Singleton.call
  rw [set_singleton_class_undesignated x x.id s h1]
  simp [h1, h2, alistGet_set]

/-- Helper: `Singleton.__call__` on an undesignated class with no cached
instance designates it for itself, then constructs and caches a fresh
instance. -/
theorem singleton_call_undesignated_miss (x : ClassDesc) (s : SState)
    (h1 : alistGet s.classes x.id = none)
    (h2 : alistGet s.instances x.id = none) :
    Singleton.call x s =
      (SState.mk (Singleton.set_singleton_class x x.id s).1.classes
        (alistSet s.instances x.id s.nextInst) (s.nextInst + 1),
        s.nextInst) := by
  unfold Singleton.call
  rw [set_singleton_class_undesignated x x.id s h1]
  simp [h1, h2, alistGet_set]

/-- Helper: after any `Singleton.__call__`, the called class has a
designated class `d`, and `d` holds a cached instance equal to the returned
value. -/
theorem singleton_call_resolved (cls : ClassDesc) (s : SState) :
    ∃ d, alistGet (Singleton.call cls s).1.classes cls.id = some d
      ∧ alistGet (Singleton.call cls s).1.instances d =
          some (Singleton.call cls s).2 := by
  cases hc : alistGet s.classes cls.id with
  | some d =>
    cases hi : alistGet s.instances d with
    | some i =>
      rw [singleton_call_hit cls s d i hc hi]
      exact ⟨d, hc, hi⟩
    | none =>
      rw [singleton_call_designated_miss cls s d hc hi]
      refine ⟨d, hc, ?_⟩
      show alistGet (alistSet s.instances d s.nextInst) d = some s.nextInst
      rw [alistGet_set]
      simp
  | none =>
    cases hi : alistGet s.instances cls.id with
    | some i =>
      rw [singleton_call_undesignated_hit cls s i hc hi,
        set_singleton_class_undesignated cls cls.id s hc]
      refine ⟨cls.id, ?_, hi⟩
      show alistGet (alistSet (cls.mro.foldl (fun m b => alistSet m b cls.id)
        s.classes) cls.id cls.id) cls.id = some cls.id
      rw [alistGet_set]
      simp
    | none =>
      rw [singleton_call_undesignated_miss cls s hc hi]
      refine ⟨cls.id, ?_, ?_⟩
      · rw [set_singleton_class_undesignated cls cls.id s hc]
        show alistGet (alistSet (cls.mro.foldl (fun m b => alistSet m b cls.id)
          s.classes) cls.id cls.id) cls.id = some cls.id
        rw [alistGet_set]
        simp
      · show alistGet (alistSet s.instances cls.id s.nextInst) cls.id =
          some s.nextInst
        rw [alistGet_set]
        simp

/-- Helper: `Singleton.__call__` never deletes or overwrites a cached
instance: any existing `_instances` entry survives any call unchanged. -/
theorem singleton_call_preserves_instance (x : ClassDesc) (s : SState)
    (k i : Nat) (h : alistGet s.instances k = some i) :
    alistGet (Singleton.call x s).1.instances k = some i := by
  cases hc : alistGet s.classes x.id with
  | some d =>
    cases hi : alistGet s.instances d with
    | some j =>
      rw [singleton_call_hit x s d j hc hi]
      exact h
    | none =>
      rw [singleton_call_designated_miss x s d hc hi]
      have hdk : ¬ d = k := by
        intro hh
        rw [hh, h] at hi
        cases hi
      show alistGet (alistSet s.instances d s.nextInst) k = some i
      rw [alistGet_set]
      simp [hdk, h]
  | none =>
    cases hi : alistGet s.instances x.id with
    | some j =>
      rw [singleton_call_undesignated_hit x s j hc hi,
        set_singleton_class_undesignated x x.id s hc]
      exact h
    | none =>
      rw [singleton_call_undesignated_miss x s hc hi]
      have hdk : ¬ x.id = k := by
        intro hh
        rw [hh, h] at hi
        cases hi
      show alistGet (alistSet s.instances x.id s.nextInst) k = some i
      rw [alistGet_set]
      simp [hdk, h]

/-- Helper: `Singleton.__call__` preserves uniqueness of the `_instances`
keys (at most one cached instance per concrete class). -/
theorem singleton_call_instances_nodup (x : ClassDesc) (s : SState)
    (h : (s.instances.map Prod.fst).Nodup) :
    ((Singleton.call x s).1.instances.map Prod.fst).Nodup := by
  cases hc : alistGet s.classes x.id with
  | some d =>
    cases hi : alistGet s.instances d with
    | some j =>
      rw [singleton_call_hit x s d j hc hi]
      exact h
    | none =>
      rw [singleton_call_designated_miss x s d hc hi]
      exact alistSet_keys_nodup s.instances d s.nextInst h
  | none =>
    cases hi : alistGet s.instances x.id with
    | some j =>
      rw [singleton_call_undesignated_hit x s j hc hi,
        set_singleton_class_undesignated x x.id s hc]
      exact h
    | none =>
      rw [singleton_call_undesignated_miss x s hc hi]
      exact alistSet_keys_nodup s.instances x.id s.nextInst h

/-- C3: after any `Singleton.__call__` (the `obtain()` of the spec), the
called class has a designated concrete class `d` whose cached instance is
exactly the returned one; every later call on any class currently designated
to the same `d` (the root itself or any alias) returns the identical cached
instance and leaves the registry unchanged; and no call ever overwrites a
cached instance or duplicates an `_instances` key, so at most one instance
per designated concrete class is ever constructed. -/
theorem singleton_obtain_identical (cls : ClassDesc) (s : SState) :
    ∃ d, alistGet (Singleton.call cls s).1.classes cls.id = some d
      ∧ alistGet (Singleton.call cls s).1.instances d =
          some (Singleton.call cls s).2
      ∧ (∀ (x : ClassDesc) (t : SState),
          alistGet t.classes x.id = some d →
          alistGet t.instances d = some (Singleton.call cls s).2 →
          Singleton.call x t = (t, (Singleton.call cls s).2))
      ∧ (∀ (x : ClassDesc) (t : SState) (k i : Nat),
          alistGet t.instances k = some i →
          alistGet (Singleton.call x t).1.instances k = some i)
      ∧ (∀ (x : ClassDesc) (t : SState),
          (t.instances.map Prod.fst).Nodup →
          ((Singleton.call x t).1.instances.map Prod.fst).Nodup) := by
  obtain ⟨d, hd1, hd2⟩ := singleton_call_resolved cls s
  exact ⟨d, hd1, hd2,
    fun x t h1 h2 => singleton_call_hit x t d _ h1 h2,
    fun x t k i h => singleton_call_preserves_instance x t k i h,
    fun x t h => singleton_call_instances_nodup x t h⟩

/-- Witness for C3 at a concrete run: from a registry that already caches an
instance `7` for class `5`, the first call on class `0` designates and
caches a fresh instance; the second call returns the identical instance with
the registry unchanged, and the pre-existing instance survives. -/
theorem singleton_obtain_identical_witness :
    Singleton.call ⟨0, [0]⟩
        ((Singleton.call ⟨0, [0]⟩ (SState.mk [] [(5, 7)] 8)).1) =
      ((Singleton.call ⟨0, [0]⟩ (SState.mk [] [(5, 7)] 8)).1,
        (Singleton.call ⟨0, [0]⟩ (SState.mk [] [(5, 7)] 8)).2)
    ∧ alistGet (Singleton.call ⟨0, [0]⟩
        (SState.mk [] [(5, 7)] 8)).1.instances 5 = some 7
    ∧ ((Singleton.call ⟨0, [0]⟩
        (SState.mk [] [(5, 7)] 8)).1.instances.map Prod.fst).Nodup := by
  obtain ⟨d, hd1, hd2, hhit, hpres, hnodup⟩ :=
    singleton_obtain_identical ⟨0, [0]⟩ (SState.mk [] [(5, 7)] 8)
  refine ⟨hhit ⟨0, [0]⟩ _ hd1 hd2, hpres ⟨0, [0]⟩ _ 5 7 rfl, hnodup ⟨0, [0]⟩ _ (by simp)⟩

/-- C4 counterexample: designate class `0` to concrete class `1` in a fresh
registry, so no instance whatsoever exists; a second designation request (to
concrete class `2`) nonetheless warns and is ignored, because the guard
tests for an existing designation, not an existing instance. -/
theorem set_singleton_class_counterexample :
    (Singleton.set_singleton_class ⟨0, [0]⟩ 1 (SState.mk [] [] 0)).1.instances
        = []
    ∧ (Singleton.set_singleton_class ⟨0, [0]⟩ 2
        (Singleton.set_singleton_class ⟨0, [0]⟩ 1 (SState.mk [] [] 0)).1).2
        = true
    ∧ (Singleton.set_singleton_class ⟨0, [0]⟩ 2
        (Singleton.set_singleton_class ⟨0, [0]⟩ 1 (SState.mk [] [] 0)).1).1
        = (Singleton.set_singleton_class ⟨0, [0]⟩ 1 (SState.mk [] [] 0)).1
    ∧ alistGet (Singleton.set_singleton_class ⟨0, [0]⟩ 2
        (Singleton.set_singleton_class ⟨0, [0]⟩ 1
          (SState.mk [] [] 0)).1).1.classes 0 = some 1 := by
  exact ⟨rfl, rfl, rfl, rfl⟩

/-- C4 amended: `set_singleton_class` warns exactly once and ignores the
request whenever the root already has a designation (which is always the
case once an instance exists for it), leaving the registry unchanged; when
the root has no designation yet it records the concrete class for the root,
every class of its MRO and the concrete class itself, without warning and
without touching the instances. -/
theorem set_singleton_class_spec (self : ClassDesc) (c : Nat) (s : SState) :
    ((alistGet s.classes self.id).isSome = true →
        Singleton.set_singleton_class self c s = (s, true))
    ∧ (alistGet s.classes self.id = none →
        (Singleton.set_singleton_class self c s).2 = false
        ∧ (∀ b, b ∈ self.mro →
            alistGet (Singleton.set_singleton_class self c s).1.classes b =
              some c)
        ∧ alistGet (Singleton.set_singleton_class self c s).1.classes c =
            some c
        ∧ (Singleton.set_singleton_class self c s).1.instances = s.instances
        ∧ (Singleton.set_singleton_class self c s).1.nextInst = s.nextInst) := by
  constructor
  · exact set_singleton_class_designated self c s
  · intro h
    rw [set_singleton_class_undesignated self c s h]
    refine ⟨rfl, ?_, ?_, rfl, rfl⟩
    · intro b hb
      rw [alistGet_set, alistGet_foldl_set]
      by_cases hcb : c = b <;> simp [hcb, hb]
    · rw [alistGet_set]
      simp

/-- Witness for C4 (amended) at concrete inputs: both guard branches. -/
theorem set_singleton_class_spec_witness :
    Singleton.set_singleton_class ⟨0, [0]⟩ 2 (SState.mk [(0, 1)] [] 0) =
        (SState.mk [(0, 1)] [] 0, true)
    ∧ alistGet (Singleton.set_singleton_class ⟨0, [0]⟩ 1
        (SState.mk [] [] 0)).1.classes 0 = some 1 := by
  constructor
  · exact (set_singleton_class_spec ⟨0, [0]⟩ 2 (SState.mk [(0, 1)] [] 0)).1 rfl
  · exact (((set_singleton_class_spec ⟨0, [0]⟩ 1
      (SState.mk [] [] 0)).2 rfl).2.1) 0 (by simp)

/-- C10: auto-designation is order dependent, contradicting the repository
test `test_singleton_subclassable_without_set_is_instantiation_order_independent`.
Classes: `99` plays `object`, `0` a singleton root, `1` its subclass, `2`
the sub-subclass.  Instantiating the sub-subclass `2` first binds every
ancestor to `2`, so the subsequent call on the subclass `1` returns the
identical cached instance of `2` and constructs nothing (first two
conjuncts), while in the opposite order the two calls produce two distinct
instances (third conjunct). -/
theorem singleton_auto_designation_order_dependent :
    (Singleton.call ⟨1, [1, 0, 99]⟩
        ((Singleton.call ⟨2, [2, 1, 0, 99]⟩ (SState.mk [] [] 0)).1)).2 =
      (Singleton.call ⟨2, [2, 1, 0, 99]⟩ (SState.mk [] [] 0)).2
    ∧ (Singleton.call ⟨1, [1, 0, 99]⟩
        ((Singleton.call ⟨2, [2, 1, 0, 99]⟩ (SState.mk [] [] 0)).1)).1 =
      (Singleton.call ⟨2, [2, 1, 0, 99]⟩ (SState.mk [] [] 0)).1
    ∧ (Singleton.call ⟨2, [2, 1, 0, 99]⟩
        ((Singleton.call ⟨1, [1, 0, 99]⟩ (SState.mk [] [] 0)).1)).2 ≠
      (Singleton.call ⟨1, [1, 0, 99]⟩ (SState.mk [] [] 0)).2 := by
  refine ⟨rfl, rfl, ?_⟩
  decide

/-- Helper: `is_True` on a boolean value is the boolean itself. -/
theorem Val.is_True_vBool (b : Bool) : (Val.vBool b).is_True = b := by
  cases b <;> rfl

/-- Helper: for every option of the embedded schema kinds, `check_value`
accepts the value `get_value` produced: plain options accept everything and
the abstract option always produces an exact boolean. -/
theorem check_value_get_value_ok (o : MetaOption)
    (M B : Option (List (String × Val))) (a : McsArgs) :
    o.check_value (o.get_value M B a) = .ok () := by
  cases hk : o.kind with
  | plain => simp [MetaOption.check_value, MetaOption.get_value, hk]
  | abstract =>
    simp only [MetaOption.check_value, MetaOption.get_value, hk]
    by_cases hb : ((alistGet a.clsdict ABSTRACT_ATTR).getD
        (Val.vBool false)).is_True = true
    · simp [hb, Val.isBool]
    · simp [hb, Val.isBool]

/-- Helper: the fill loop splits over list append. -/
theorem fillLoop_append (l1 l2 : List MetaOption)
    (M B : Option (List (String × Val))) (a : McsArgs)
    (sa ma : List (String × Val)) :
    fillLoop (l1 ++ l2) M B a sa ma =
      match fillLoop l1 M B a sa ma with
      | .error e => .error e
      | .ok (sa1, ma1) => fillLoop l2 M B a sa1 ma1 := by
  induction l1 generalizing sa ma with
  | nil => simp [fillLoop]
  | cons o rest ih =>
    simp only [List.cons_append, fillLoop]
    by_cases hs : (alistGet sa o.name).isSome = true
    · simp [hs]
    · simp only [hs, Bool.false_eq_true, if_false]
      cases hc : o.check_value (o.get_value M B a) with
      | error e => simp [hc]
      | ok u => simp [hc, ih]

/-- Helper: with pairwise-distinct spec names and a factory that carries
none of them yet, the fill loop completes, the final working set is the
initial one minus every spec name, and the factory afterwards carries
exactly the processed non-placeholder names (on top of what it had). -/
theorem fillLoop_ok (opts : List MetaOption)
    (M B : Option (List (String × Val))) (a : McsArgs)
    (sa ma : List (String × Val))
    (hnd : (opts.map (fun o => o.name)).Nodup)
    (hfree : ∀ o ∈ opts, alistGet sa o.name = none) :
    ∃ sa1, fillLoop opts M B a sa ma =
        .ok (sa1, ma.filter (fun kv => opts.all (fun o => kv.1 ≠ o.name)))
      ∧ ∀ n : String, (alistGet sa1 n).isSome = true ↔
          ((∃ o ∈ opts, o.name = n) ∧ n ≠ "_")
          ∨ (alistGet sa n).isSome = true := by
  revert hnd hfree
  induction opts generalizing sa ma with
  | nil =>
    intro hnd hfree
    refine ⟨sa, ?_, ?_⟩
    · simp [fillLoop]
    · simp
  | cons o rest ih =>
    intro hnd hfree
    have hhead : alistGet sa o.name = none := hfree o (List.mem_cons_self o rest)
    have hnd1 : (rest.map (fun o => o.name)).Nodup := (List.nodup_cons.mp hnd).2
    have hnotin : o.name ∉ rest.map (fun o => o.name) :=
      (List.nodup_cons.mp hnd).1
    obtain ⟨sa1, hrec, hchar⟩ := ih
      (if o.name ≠ "_" then alistSet sa o.name (o.get_value M B a) else sa)
      (alistErase ma o.name) hnd1 (by
        intro o1 ho1
        have hne : ¬ o.name = o1.name := by
          intro hh
          exact hnotin (hh ▸ List.mem_map_of_mem (fun o => o.name) ho1)
        by_cases hu : o.name ≠ "_"
        · rw [if_pos hu, alistGet_set, if_neg hne]
          exact hfree o1 (List.mem_cons_of_mem o ho1)
        · rw [if_neg hu]
          exact hfree o1 (List.mem_cons_of_mem o ho1))
    refine ⟨sa1, ?_, ?_⟩
    · simp only [fillLoop, hhead, Option.isSome_none, Bool.false_eq_true,
        if_false, check_value_get_value_ok o M B a]
      rw [hrec]
      congr 1
      congr 1
      show (List.filter (fun kv => kv.1 ≠ o.name) ma).filter
          (fun kv => rest.all (fun o1 => kv.1 ≠ o1.name)) = _
      rw [List.filter_filter]
      refine List.filter_congr ?_
      intro kv hkv
      rw [List.all_cons, Bool.and_comm]
    · intro n
      rw [hchar n]
      constructor
      · rintro (⟨⟨o1, ho1, hon⟩, hnu⟩ | hrest)
        · exact Or.inl ⟨⟨o1, List.mem_cons_of_mem o ho1, hon⟩, hnu⟩
        · by_cases hu : o.name ≠ "_"
          · rw [if_pos hu] at hrest
            simp only [alistGet_set] at hrest
            by_cases hon : o.name = n
            · exact Or.inl ⟨⟨o, List.mem_cons_self o rest, hon⟩, hon ▸ hu⟩
            · rw [if_neg hon] at hrest
              exact Or.inr hrest
          · rw [if_neg hu] at hrest
            exact Or.inr hrest
      · rintro (⟨⟨o1, ho1, hon⟩, hnu⟩ | hsa)
        · rcases List.mem_cons.mp ho1 with h1 | h1
          · subst h1
            have hu : o1.name ≠ "_" := hon ▸ hnu
            right
            rw [if_pos hu]
            simp only [alistGet_set, hon, if_true]
            rfl
          · exact Or.inl ⟨⟨o1, h1, hon⟩, hnu⟩
        · right
          by_cases hu : o.name ≠ "_"
          · rw [if_pos hu]
            simp only [alistGet_set]
            by_cases hon : o.name = n
            · simp [hon]
            · simpa [hon] using hsa
          · rw [if_neg hu]
            exact hsa

/-- Helper: the unfolding equation of `_fill_from_meta` (the `let` for the
working set reduced away). -/
theorem fill_from_meta_eq (opts : List MetaOption)
    (M B : Option (List (String × Val))) (a : McsArgs) :
    MetaOptionsFactory.fill_from_meta opts M B a =
      match fillLoop opts M B a []
          (match M with
           | none => []
           | some m => m.filter (fun kv => ¬ startsWithUnderscore kv.1)) with
      | .error e => .error e
      | .ok (selfAttrs, remaining) =>
        if remaining.isEmpty then .ok selfAttrs
        else
          .error (.typeError ("`class Meta` for " ++ a.name ++
            " got unknown attribute(s) " ++
            String.intercalate ", " (sortStrings (remaining.map Prod.fst)))) :=
  rfl

/-- C2: for every pending class whose declared `Meta` carries at least one
non-underscore key with no matching spec (and a well-formed schema with
pairwise-distinct spec names, and `Meta` a well-formed dict with unique
keys), `_fill_from_meta` raises the `TypeError` whose message names the
class under construction and lists the unknown keys, sorted alphabetically,
each exactly once; no unknown key is silently dropped. -/
theorem fill_unknown_attrs_error (opts : List MetaOption)
    (m : List (String × Val)) (B : Option (List (String × Val))) (a : McsArgs)
    (hnd : (opts.map (fun o => o.name)).Nodup)
    (hkeys : (m.map Prod.fst).Nodup)
    (hne : unknownMetaKeys m opts ≠ []) :
    MetaOptionsFactory.fill_from_meta opts (some m) B a =
      .error (.typeError ("`class Meta` for " ++ a.name ++
        " got unknown attribute(s) " ++
        String.intercalate ", " (sortStrings (unknownMetaKeys m opts))))
    ∧ (sortStrings (unknownMetaKeys m opts)).Nodup
    ∧ List.Sorted (· ≤ ·) (sortStrings (unknownMetaKeys m opts))
    ∧ (∀ k, k ∈ sortStrings (unknownMetaKeys m opts) ↔
        k ∈ unknownMetaKeys m opts) := by
  have hfree : ∀ o ∈ opts, alistGet ([] : List (String × Val)) o.name = none :=
    fun o _ => rfl
  obtain ⟨sa1, hloop, -⟩ := fillLoop_ok opts (some m) B a []
    (m.filter (fun kv => ¬ startsWithUnderscore kv.1)) hnd hfree
  have hnodup : (unknownMetaKeys m opts).Nodup := by
    refine List.Nodup.sublist ?_ hkeys
    exact List.Sublist.map Prod.fst
      ((List.filter_sublist _).trans (List.filter_sublist m))
  refine ⟨?_, ?_, ?_, ?_⟩
  · rw [fill_from_meta_eq, hloop]
    have hre : ((m.filter (fun kv => ¬ startsWithUnderscore kv.1)).filter
        (fun kv => opts.all (fun o => kv.1 ≠ o.name))).isEmpty = false := by
      cases hrem : (m.filter (fun kv => ¬ startsWithUnderscore kv.1)).filter
          (fun kv => opts.all (fun o => kv.1 ≠ o.name)) with
      | nil =>
        refine absurd ?_ hne
        unfold unknownMetaKeys
        rw [hrem]
        rfl
      | cons hd tl => rfl
    simp only [hre, Bool.false_eq_true, if_false]
    rfl
  · exact (List.perm_insertionSort _ _).nodup_iff.mpr hnodup
  · exact List.sorted_insertionSort _ _
  · intro k
    exact (List.perm_insertionSort _ _).mem_iff

/-- Witness for C2 at a concrete input: the block `{fail: "x"}` against a
one-spec schema raises the `TypeError` naming the class `Foobar` and the
unknown key `fail`. -/
theorem fill_unknown_attrs_error_witness :
    (([⟨.plain, "one", .vInt 1, false⟩] : List MetaOption).map
        (fun o => o.name)).Nodup
    ∧ (([("fail", Val.vStr "x")] : List (String × Val)).map Prod.fst).Nodup
    ∧ unknownMetaKeys [("fail", Val.vStr "x")]
        [⟨.plain, "one", .vInt 1, false⟩] ≠ []
    ∧ MetaOptionsFactory.fill_from_meta [⟨.plain, "one", .vInt 1, false⟩]
        (some [("fail", Val.vStr "x")]) none ⟨"Foobar", [], []⟩ =
      .error (.typeError
        "`class Meta` for Foobar got unknown attribute(s) fail") := by
  refine ⟨by simp, by simp, by decide, ?_⟩
  have h := (fill_unknown_attrs_error [⟨.plain, "one", .vInt 1, false⟩]
    [("fail", Val.vStr "x")] none ⟨"Foobar", [], []⟩ (by simp) (by simp)
    (by decide)).1
  rw [h]
  rfl

/-- C8 counterexample: a schema with two specs both named the placeholder
`_` resolves successfully instead of aborting: placeholder values are never
stored on the factory, so the duplicate-name assertion cannot see them. -/
theorem fill_duplicate_underscore_silently_ok :
    MetaOptionsFactory.fill_from_meta
      [⟨.plain, "_", .vNone, false⟩, ⟨.plain, "_", .vNone, false⟩]
      none none ⟨"T", [], []⟩ = .ok [] := rfl

/-- C8 amended: when the ordered spec list repeats a name other than the
placeholder `_` (with the earlier specs pairwise distinct so they resolve),
the fill aborts with the duplicate-field `AssertionError` at the second
occurrence, before overwriting the stored value; duplicates of `_` escape
the check. -/
theorem fill_duplicate_spec_aborts (l1 : List MetaOption) (o2 : MetaOption)
    (post : List MetaOption) (M B : Option (List (String × Val)))
    (a : McsArgs)
    (hnd : (l1.map (fun o => o.name)).Nodup)
    (hmem : o2.name ∈ l1.map (fun o => o.name))
    (hu : o2.name ≠ "_") :
    MetaOptionsFactory.fill_from_meta (l1 ++ o2 :: post) M B a =
      .error (.assertionError ("Can\x27t override field " ++ o2.name ++ ".")) := by
  obtain ⟨sa1, hloop, hchar⟩ := fillLoop_ok l1 M B a []
    (match M with
     | none => []
     | some m => m.filter (fun kv => ¬ startsWithUnderscore kv.1))
    hnd (fun o _ => rfl)
  rw [fill_from_meta_eq, fillLoop_append, hloop]
  have hsome : (alistGet sa1 o2.name).isSome = true := by
    rw [hchar o2.name]
    obtain ⟨o1, ho1, hon⟩ := List.mem_map.mp hmem
    exact Or.inl ⟨⟨o1, ho1, hon⟩, hu⟩
  simp only [fillLoop, hsome, if_true]

/-- Witness for C8 (amended) at a concrete input: two specs named `one`. -/
theorem fill_duplicate_spec_aborts_witness :
    (([⟨.plain, "one", .vInt 1, false⟩] : List MetaOption).map
        (fun o => o.name)).Nodup
    ∧ ("one" : String) ∈ ([⟨.plain, "one", .vInt 1, false⟩] :
        List MetaOption).map (fun o => o.name)
    ∧ ("one" : String) ≠ "_"
    ∧ MetaOptionsFactory.fill_from_meta
        [⟨.plain, "one", .vInt 1, false⟩, ⟨.plain, "one", .vInt 2, true⟩]
        none none ⟨"T", [], []⟩ =
      .error (.assertionError "Can\x27t override field one.") := by
  refine ⟨by simp, by simp, by decide, ?_⟩
  have h := fill_duplicate_spec_aborts [⟨.plain, "one", .vInt 1, false⟩]
    ⟨.plain, "one", .vInt 2, true⟩ [] none none ⟨"T", [], []⟩
    (by simp) (by simp) (by decide)
  simp only [List.cons_append, List.nil_append] at h
  rw [h]
  rfl

/-- C5 counterexample: a pending class with `__abstract__ = False` in its
namespace and `abstract = True` in its `Meta` block resolves the abstract
option to `True`: the namespace flag does not determine the resolved value
unless it is exactly `True` (the claimed flag-always-wins rule fails). -/
theorem abstract_flag_conflict_counterexample :
    MetaOptionsFactory.contribute_to_class [abstractMetaOption]
        ⟨"Test", [], [(ABSTRACT_ATTR, Val.vBool false),
          ("Meta", Val.vCls [("abstract", Val.vBool true)])]⟩ =
      .ok ([(ABSTRACT_ATTR, Val.vBool true),
            ("Meta", Val.vFactory [("abstract", Val.vBool true)])],
           [("abstract", Val.vBool true)])
    ∧ Val.vBool true ≠ Val.vBool false := by
  refine ⟨rfl, ?_⟩
  intro h
  exact Bool.noConfusion (Val.vBool.inj h)

/-- C5 amended: for a pending class that sets the `__abstract__` flag to `f`
in its namespace and `abstract` to `mv` in its `Meta` block, the resolved
abstract value is `True` when `f is True` (the flag wins only then), and
otherwise it is whether `mv is True`; afterwards the namespace flag is
rewritten to exactly the resolved boolean. -/
theorem abstract_flag_resolution (a : McsArgs) (f mv : Val)
    (m : List (String × Val))
    (hflag : alistGet a.clsdict ABSTRACT_ATTR = some f)
    (hmeta : alistGet a.clsdict "Meta" = some (.vCls m))
    (hflt : m.filter (fun kv => ¬ startsWithUnderscore kv.1) =
      [("abstract", mv)])
    (hget : alistGet m "abstract" = some mv) :
    ∃ cd sa, MetaOptionsFactory.contribute_to_class [abstractMetaOption] a =
        .ok (cd, sa)
      ∧ alistGet sa "abstract" = some (.vBool (f.is_True || mv.is_True))
      ∧ alistGet cd ABSTRACT_ATTR = some (.vBool (f.is_True || mv.is_True)) := by
  have hcd0 : alistGet (alistErase a.clsdict "Meta") ABSTRACT_ATTR = some f := by
    rw [alistGet_erase, if_neg (by decide : ¬ (ABSTRACT_ATTR = "Meta"))]
    exact hflag
  have hval : ∀ B : Option (List (String × Val)),
      abstractMetaOption.get_value (some m) B
        ⟨a.name, a.bases, alistErase a.clsdict "Meta"⟩ =
      .vBool (f.is_True || mv.is_True) := by
    intro B
    show (if ((alistGet (alistErase a.clsdict "Meta") ABSTRACT_ATTR).getD
          (.vBool false)).is_True
        then Val.vBool true
        else .vBool (abstractMetaOption.base_get_value (some m) B).is_True) =
      .vBool (f.is_True || mv.is_True)
    rw [hcd0, Option.getD_some]
    have hbase : abstractMetaOption.base_get_value (some m) B = mv := by
      show (alistGet m "abstract").getD (Val.vBool false) = mv
      rw [hget]
      rfl
    rw [hbase]
    cases hf : f.is_True <;> simp [hf]
  have hfill : ∀ B : Option (List (String × Val)),
      MetaOptionsFactory.fill_from_meta [abstractMetaOption] (some m) B
        ⟨a.name, a.bases, alistErase a.clsdict "Meta"⟩ =
      .ok [("abstract", Val.vBool (f.is_True || mv.is_True))] := by
    intro B
    rw [fill_from_meta_eq]
    rw [show (match (some m : Option (List (String × Val))) with
        | none => ([] : List (String × Val))
        | some m1 => m1.filter (fun kv => ¬ startsWithUnderscore kv.1)) =
        [("abstract", mv)] from hflt]
    have hstep : fillLoop [abstractMetaOption] (some m) B
        ⟨a.name, a.bases, alistErase a.clsdict "Meta"⟩ [] [("abstract", mv)] =
        .ok ([("abstract", abstractMetaOption.get_value (some m) B
          ⟨a.name, a.bases, alistErase a.clsdict "Meta"⟩)], []) := by
      simp only [fillLoop]
      rw [check_value_get_value_ok abstractMetaOption (some m) B
        ⟨a.name, a.bases, alistErase a.clsdict "Meta"⟩]
      rfl
    rw [hstep, hval B]
    rfl
  have hexp : MetaOptionsFactory.contribute_to_class [abstractMetaOption] a =
      (match MetaOptionsFactory.fill_from_meta [abstractMetaOption]
          ((alistGet a.clsdict "Meta").bind Val.asAttrs)
          ((match deep_getattr (alistErase a.clsdict "Meta") a.bases "Meta"
              (some .vNone) with
            | .ok v => v
            | .error _ => .vNone).asAttrs)
          ⟨a.name, a.bases, alistErase a.clsdict "Meta"⟩ with
       | .error e => .error e
       | .ok selfAttrs =>
         .ok ([abstractMetaOption].foldl
             (fun cd o => o.contribute_to_class cd
               ((alistGet selfAttrs o.name).getD .vNone))
             (alistSet (alistErase a.clsdict "Meta") "Meta"
               (.vFactory selfAttrs)),
           selfAttrs)) := rfl
  refine ⟨alistSet
      (alistSet (alistErase a.clsdict "Meta") "Meta"
        (.vFactory [("abstract", Val.vBool (f.is_True || mv.is_True))]))
      ABSTRACT_ATTR
      (.vBool ((alistGet [("abstract", Val.vBool (f.is_True || mv.is_True))]
        "abstract").getD .vNone).is_True),
    [("abstract", Val.vBool (f.is_True || mv.is_True))], ?_, rfl, ?_⟩
  · rw [hexp, hmeta,
      show Option.bind (some (Val.vCls m)) Val.asAttrs = some m from rfl,
      hfill]
    rfl
  · show alistGet (alistSet
        (alistSet (alistErase a.clsdict "Meta") "Meta"
          (.vFactory [("abstract", Val.vBool (f.is_True || mv.is_True))]))
        ABSTRACT_ATTR
        (.vBool ((alistGet [("abstract", Val.vBool (f.is_True || mv.is_True))]
          "abstract").getD .vNone).is_True))
      ABSTRACT_ATTR =
      some (.vBool (f.is_True || mv.is_True))
    rw [alistGet_set, if_pos rfl,
      show ((alistGet [("abstract", Val.vBool (f.is_True || mv.is_True))]
        "abstract").getD .vNone) = Val.vBool (f.is_True || mv.is_True) from rfl,
      Val.is_True_vBool]

/-- Witness for C5 (amended) at a concrete input: a truthy non-boolean flag
together with `abstract = True` in the block resolves to `True` and the flag
is rewritten to `True`. -/
theorem abstract_flag_resolution_witness :
    ∃ cd sa, MetaOptionsFactory.contribute_to_class [abstractMetaOption]
        ⟨"Test", [], [(ABSTRACT_ATTR, Val.vStr "garbage"),
          ("Meta", Val.vCls [("abstract", Val.vBool true)])]⟩ = .ok (cd, sa)
      ∧ alistGet sa "abstract" = some (.vBool true)
      ∧ alistGet cd ABSTRACT_ATTR = some (.vBool true) := by
  have h := abstract_flag_resolution
    ⟨"Test", [], [(ABSTRACT_ATTR, Val.vStr "garbage"),
      ("Meta", Val.vCls [("abstract", Val.vBool true)])]⟩
    (Val.vStr "garbage") (Val.vBool true) [("abstract", Val.vBool true)]
    rfl rfl rfl rfl
  simpa [Val.is_True] using h

end PyMetaUtils
